import Mathlib

/-!
Verification of the syncron Merkle path-tree and scanner core.

Shallow embedding of `src/datastructures/merkle_tree.rs`,
`src/filesystem/data.rs` and `src/filesystem/scan.rs`.

Byte strings (`Vec<u8>`, `&[u8]`, `blake3::Hash`) are modelled as `List Nat`.
The BLAKE3 compression itself is kept abstract: every hashing definition is
parameterised over a function `blake3 : Bytes → Bytes`, and the development
tracks exactly which byte sequence is fed to the hasher, which is what the
spec's hashing clauses are about.  `UNIX_EPOCH.elapsed()` is modelled as an
explicit `now : Nat` argument.  Rust panics (`expect`, slice indexing) are
modelled as error values of an `Except`.
-/

namespace Syncron

/-- Byte strings: `Vec<u8>` / `&[u8]` from the source, as a list of bytes. -/
abbrev Bytes := List Nat

/-- One path segment: the tree's key type `K : Eq + Ord + Clone + Hash + AsRef<[u8]>`,
compared byte-lexicographically (as Rust `String` / `Vec<u8>` `Ord` does). -/
abbrev Seg := List Nat

/-- Embedding of `Ord::cmp` on segments: byte-lexicographic comparison. -/
def segCmp : Seg → Seg → Ordering
  | [], [] => .eq
  | [], _ :: _ => .lt
  | _ :: _, [] => .gt
  | a :: ra, b :: rb =>
    match compare a b with
    | .eq => segCmp ra rb
    | o => o

/-- Embedding of `filesystem::data::MerkleEntry`: a tagged file-or-directory record.
`PathBuf` is modelled as a list of segments. -/
inductive MerkleEntry where
  | directory (path : List Seg) (last_modified : Nat) (hash : Bytes)
  | file (path : List Seg) (last_modified : Nat) (file_size : Nat) (hash : Bytes)
deriving DecidableEq, Repr

/-- Embedding of `MerkleEntry::get_path`. -/
def MerkleEntry.get_path : MerkleEntry → List Seg
  | .directory p _ _ => p
  | .file p _ _ _ => p

/-- Embedding of `MerkleEntry::get_hash`. -/
def MerkleEntry.get_hash : MerkleEntry → Bytes
  | .directory _ _ h => h
  | .file _ _ _ h => h

/-- Modelled from the spec: `MerkleEntry::get_last_modified` is called by the
tree (`merkle_tree.rs` lines 24 and 124) but its definition is not in
`data.rs`; the spec says every entry carries a last-modified timestamp, so it
is the entry's `last_modified` field. -/
def MerkleEntry.get_last_modified : MerkleEntry → Nat
  | .directory _ lm _ => lm
  | .file _ lm _ _ => lm

/-- Embedding of `datastructures::merkle_tree::TreeNode`.  The `BTreeMap<K, NonNull<TreeNode>>`
is modelled as a key-sorted association list; the non-owning `parent` pointer is
a pure navigation aid in the source (mutation is modelled functionally, so the
recomputation that the source performs on the way back up the recursion is
performed on the rebuilt nodes) and carries no information, so it is omitted. -/
inductive TreeNode where
  | mk (children : List (Seg × TreeNode)) (segment : Seg) (hash : Bytes)
      (last_modified : Nat) (data : MerkleEntry)

/-- The node's children map (key-sorted association list). -/
def TreeNode.children : TreeNode → List (Seg × TreeNode)
  | .mk c _ _ _ _ => c

/-- The node's key within its parent. -/
def TreeNode.segment : TreeNode → Seg
  | .mk _ s _ _ _ => s

/-- The node's current 32-byte hash. -/
def TreeNode.hash : TreeNode → Bytes
  | .mk _ _ h _ _ => h

/-- The node's last-modified timestamp. -/
def TreeNode.last_modified : TreeNode → Nat
  | .mk _ _ _ lm _ => lm

/-- The node's owned `MerkleEntry`. -/
def TreeNode.data : TreeNode → MerkleEntry
  | .mk _ _ _ _ d => d

/-- Embedding of `BTreeMap::get`. -/
def btGet (k : Seg) : List (Seg × TreeNode) → Option TreeNode
  | [] => none
  | (k2, v) :: rest =>
    match segCmp k k2 with
    | .eq => some v
    | _ => btGet k rest

/-- Embedding of `BTreeMap::insert`: keeps the list sorted by key; an existing key's value
is replaced in place (the old value is returned and discarded by the source). -/
def btInsert (k : Seg) (v : TreeNode) : List (Seg × TreeNode) → List (Seg × TreeNode)
  | [] => [(k, v)]
  | (k2, v2) :: rest =>
    match segCmp k k2 with
    | .lt => (k, v) :: (k2, v2) :: rest
    | .eq => (k, v) :: rest
    | .gt => (k2, v2) :: btInsert k v rest

/-- Embedding of `BTreeMap::remove`. -/
def btRemove (k : Seg) : List (Seg × TreeNode) → List (Seg × TreeNode)
  | [] => []
  | (k2, v2) :: rest =>
    match segCmp k k2 with
    | .eq => rest
    | _ => (k2, v2) :: btRemove k rest

/-- The byte sequence `TreeNode::recompute_node` feeds to the BLAKE3 hasher:
for each child in key order, the child's hash bytes then its segment bytes. -/
def hashInput (children : List (Seg × TreeNode)) : Bytes :=
  children.foldl (fun acc c => acc ++ c.2.hash ++ c.2.segment) []

/-- Embedding of `TreeNode::recompute_node`: if the node has children, its hash becomes
`blake3` of `hashInput` over the children and its last-modified becomes `now`
(`UNIX_EPOCH.elapsed().as_secs()`); a childless node is left unchanged. -/
def TreeNode.recompute_node (blake3 : Bytes → Bytes) (now : Nat) : TreeNode → TreeNode
  | .mk c s h lm d =>
    if c.isEmpty then .mk c s h lm d
    else .mk c s (blake3 (hashInput c)) now d

/-- Failure modes of the tree operations.  The source has no error type at
all: it panics through `expect("not such node")` on a missing key and through
slice indexing on an empty segment slice; `expectNoSuchNode` and
`indexOutOfBounds` model those panics.  `notFound` and `alreadyExists` are the
error values the spec describes; the embedded code never produces them. -/
inductive TreeErr where
  | notFound
  | alreadyExists
  | expectNoSuchNode
  | indexOutOfBounds
deriving DecidableEq, Repr

/-- Embedding of `TreeNode::get` (merkle_tree.rs 108-115): navigate down by exact segment
match; the `expect("not such node")` panic is the `expectNoSuchNode` error. -/
def TreeNode.get : List Seg → TreeNode → Except TreeErr TreeNode
  | [], n => .ok n
  | s :: rest, n =>
    match btGet s n.children with
    | none => .error .expectNoSuchNode
    | some c => TreeNode.get rest c

/-- Embedding of `TreeNode::insert` (merkle_tree.rs 117-135).  With one segment left, a new
leaf node is built from the entry and `BTreeMap::insert`ed under that key
(replacing any existing child); otherwise the source panics if the next
segment is absent and recurses into it.  In both branches the node is then
`recompute_node`d.  An empty slice hits `segments[0]` and panics. -/
def TreeNode.insert (blake3 : Bytes → Bytes) (now : Nat) :
    List Seg → TreeNode → MerkleEntry → Except TreeErr TreeNode
  | [], _, _ => .error .indexOutOfBounds
  | [s], n, d =>
    let newNode : TreeNode := .mk [] s d.get_hash d.get_last_modified d
    .ok (TreeNode.recompute_node blake3 now
      (.mk (btInsert s newNode n.children) n.segment n.hash n.last_modified n.data))
  | s :: rest, n, d =>
    match btGet s n.children with
    | none => .error .expectNoSuchNode
    | some c =>
      match TreeNode.insert blake3 now rest c d with
      | .error e => .error e
      | .ok c2 =>
        .ok (TreeNode.recompute_node blake3 now
          (.mk (btInsert s c2 n.children) n.segment n.hash n.last_modified n.data))

/-- Embedding of `TreeNode::update` (merkle_tree.rs 137-146): with no segments left the
node's entry is replaced (its hash and last-modified fields are untouched);
otherwise recurse into the child under the first segment (panicking if it is
absent) and `recompute_node` on the way back. -/
def TreeNode.update (blake3 : Bytes → Bytes) (now : Nat) :
    List Seg → TreeNode → MerkleEntry → Except TreeErr TreeNode
  | [], n, d => .ok (.mk n.children n.segment n.hash n.last_modified d)
  | s :: rest, n, d =>
    match btGet s n.children with
    | none => .error .expectNoSuchNode
    | some c =>
      match TreeNode.update blake3 now rest c d with
      | .error e => .error e
      | .ok c2 =>
        .ok (TreeNode.recompute_node blake3 now
          (.mk (btInsert s c2 n.children) n.segment n.hash n.last_modified n.data))

/-- Embedding of `TreeNode::remove` (merkle_tree.rs 148-159): with one segment left the
child under that key is `BTreeMap::remove`d (panicking if absent) and the
function returns early — `recompute_node` is NOT called in that branch;
otherwise recurse into the child and `recompute_node` on the way back.
An empty slice hits `segments[0]` and panics. -/
def TreeNode.remove (blake3 : Bytes → Bytes) (now : Nat) :
    List Seg → TreeNode → Except TreeErr TreeNode
  | [], _ => .error .indexOutOfBounds
  | [s], n =>
    match btGet s n.children with
    | none => .error .expectNoSuchNode
    | some _ =>
      .ok (.mk (btRemove s n.children) n.segment n.hash n.last_modified n.data)
  | s :: rest, n =>
    match btGet s n.children with
    | none => .error .expectNoSuchNode
    | some c =>
      match TreeNode.remove blake3 now rest c with
      | .error e => .error e
      | .ok c2 =>
        .ok (TreeNode.recompute_node blake3 now
          (.mk (btInsert s c2 n.children) n.segment n.hash n.last_modified n.data))

/-- Embedding of `MerkleTree`: the tree handle owning the root node. -/
structure MerkleTree where
  root : TreeNode

/-- Embedding of `MerkleTree::new`: a single-node tree whose hash and last-modified come
from the entry. -/
def MerkleTree.new (root_segment : Seg) (d : MerkleEntry) : MerkleTree :=
  ⟨.mk [] root_segment d.get_hash d.get_last_modified d⟩

/-- Embedding of `HashMap<&BHash, (u64, &MerkleEntry)>` from the diff, as an association
list keyed by hash bytes.  `HashMap::insert` replaces the value of an existing
key; iteration order, unspecified in Rust, is insertion order here. -/
abbrev HashMapE := List (Bytes × (Nat × MerkleEntry))

/-- Embedding of `HashMap::insert`: replace in place if the key is present, else append. -/
def hmInsert (k : Bytes) (v : Nat × MerkleEntry) : HashMapE → HashMapE
  | [] => [(k, v)]
  | (k2, v2) :: rest =>
    if k = k2 then (k, v) :: rest else (k2, v2) :: hmInsert k v rest

/-- Embedding of `HashMap::extend`: insert every entry of `c` into `m`. -/
def hmExtend (m c : HashMapE) : HashMapE :=
  c.foldl (fun acc p => hmInsert p.1 p.2 acc) m

/-- Embedding of `children.values().map(|n| (&n.hash, (n.last_modified, &n.data))).collect::<HashMap<_,_>>()`
from `TreeNode::find_difference`'s one-sided cases. -/
def collectChildren (c : List (Seg × TreeNode)) : HashMapE :=
  c.foldl (fun acc p => hmInsert p.2.hash (p.2.last_modified, p.2.data) acc) []

/-- The linear merge loop of `find_diff_in_children` (merkle_tree.rs 241-287):
walk the two key-sorted children maps; a key only in `self` contributes its
node to `d1`, a key only in `other` contributes its node to `d2`, and a key in
both is pushed onto `common` for later recursion. -/
def diffMergeGo (d1 d2 : HashMapE) (common : List (TreeNode × TreeNode)) :
    List (Seg × TreeNode) → List (Seg × TreeNode) →
      HashMapE × HashMapE × List (TreeNode × TreeNode)
  | [], [] => (d1, d2, common)
  | (_, x) :: ra, [] =>
    diffMergeGo (hmInsert x.hash (x.last_modified, x.data) d1) d2 common ra []
  | [], (_, y) :: rb =>
    diffMergeGo d1 (hmInsert y.hash (y.last_modified, y.data) d2) common [] rb
  | (ks, x) :: ra, (ko, y) :: rb =>
    match segCmp ks ko with
    | .lt => diffMergeGo (hmInsert x.hash (x.last_modified, x.data) d1) d2 common ra ((ko, y) :: rb)
    | .gt => diffMergeGo d1 (hmInsert y.hash (y.last_modified, y.data) d2) common ((ks, x) :: ra) rb
    | .eq => diffMergeGo d1 d2 (common ++ [(x, y)]) ra rb
termination_by la lb => la.length + lb.length

/-- The final loop of `find_diff_in_children` (merkle_tree.rs 289-296):
`common.iter().filter_map(find_difference).for_each(extend)` — fold the
per-pair recursive results into the two accumulated maps. -/
def combineResults : List (Option (HashMapE × HashMapE)) → HashMapE × HashMapE → HashMapE × HashMapE
  | [], acc => acc
  | none :: rest, acc => combineResults rest acc
  | some (c1, c2) :: rest, (d1, d2) => combineResults rest (hmExtend d1 c1, hmExtend d2 c2)

/-- Children of a node are smaller than the node (for the recursion measure of
`find_difference`). -/
theorem sizeOf_lt_of_mem_children {s : Seg} {x t : TreeNode} (h : (s, x) ∈ t.children) :
    sizeOf x < sizeOf t := by
  cases t with
  | mk c seg hh lm d =>
    have h1 : sizeOf (s, x) < sizeOf c := List.sizeOf_lt_of_mem h
    simp only [Prod.mk.sizeOf_spec] at h1
    simp only [TreeNode.mk.sizeOf_spec]
    omega

/-- Every pair collected into `common` by the merge loop comes from the initial
accumulator or has its components among the values of the two input maps. -/
theorem mem_common_diffMergeGo {x y : TreeNode} :
    ∀ (d1 d2 : HashMapE) (com : List (TreeNode × TreeNode))
      (la lb : List (Seg × TreeNode)),
      (x, y) ∈ (diffMergeGo d1 d2 com la lb).2.2 →
      (x, y) ∈ com ∨ ((∃ s, (s, x) ∈ la) ∧ ∃ s, (s, y) ∈ lb) := by
  intro d1 d2 com la lb
  induction d1, d2, com, la, lb using diffMergeGo.induct with
  | case1 d1 d2 com => simpa [diffMergeGo] using fun h => Or.inl h
  | case2 d1 d2 com k a ra ih =>
    intro h
    rw [diffMergeGo] at h
    rcases ih h with h1 | ⟨⟨s, hs⟩, hy⟩
    · exact Or.inl h1
    · exact Or.inr ⟨⟨s, List.mem_cons_of_mem _ hs⟩, by simpa using hy⟩
  | case3 d1 d2 com k a rb ih =>
    intro h
    rw [diffMergeGo] at h
    rcases ih h with h1 | ⟨hx, ⟨s, hs⟩⟩
    · exact Or.inl h1
    · exact Or.inr ⟨hx, ⟨s, List.mem_cons_of_mem _ hs⟩⟩
  | case4 d1 d2 com ks a ra ko b rb hcmp ih =>
    intro h
    rw [diffMergeGo] at h
    rw [hcmp] at h
    rcases ih h with h1 | ⟨⟨s, hs⟩, ⟨s2, hs2⟩⟩
    · exact Or.inl h1
    · exact Or.inr ⟨⟨s, List.mem_cons_of_mem _ hs⟩, ⟨s2, hs2⟩⟩
  | case5 d1 d2 com ks a ra ko b rb hcmp ih =>
    intro h
    rw [diffMergeGo] at h
    rw [hcmp] at h
    rcases ih h with h1 | ⟨⟨s, hs⟩, ⟨s2, hs2⟩⟩
    · exact Or.inl h1
    · exact Or.inr ⟨⟨s, hs⟩, ⟨s2, List.mem_cons_of_mem _ hs2⟩⟩
  | case6 d1 d2 com ks a ra ko b rb hcmp ih =>
    intro h
    rw [diffMergeGo] at h
    rw [hcmp] at h
    rcases ih h with h1 | ⟨⟨s, hs⟩, ⟨s2, hs2⟩⟩
    · rcases List.mem_append.mp h1 with h2 | h2
      · exact Or.inl h2
      · simp only [List.mem_singleton, Prod.mk.injEq] at h2
        exact Or.inr ⟨⟨ks, by simp [h2.1]⟩, ⟨ko, by simp [h2.2]⟩⟩
    · exact Or.inr ⟨⟨s, List.mem_cons_of_mem _ hs⟩, ⟨s2, List.mem_cons_of_mem _ hs2⟩⟩

/-- Embedding of `TreeNode::find_difference` (merkle_tree.rs 161-216) together with
`find_diff_in_children` (230-299): equal hashes mean no difference; two
childless nodes are a leaf-vs-leaf comparison decided by `last_modified`
(note the source stores `self.last_modified` on both sides); a childless node
against an interior one contributes the interior node's immediate children
wholesale; otherwise the two children maps are merged and the recursive
results of the common keys are folded in. -/
def findDifference (a b : TreeNode) : Option (HashMapE × HashMapE) :=
  if a.hash = b.hash then none
  else if a.children.isEmpty && b.children.isEmpty then
    if a.last_modified > b.last_modified then
      some ([(a.hash, (a.last_modified, a.data))], [])
    else
      some ([], [(b.hash, (a.last_modified, b.data))])
  else if a.children.isEmpty then
    some ([], collectChildren b.children)
  else if b.children.isEmpty then
    some (collectChildren a.children, [])
  else
    let m := diffMergeGo [] [] [] a.children b.children
    some (combineResults (m.2.2.attach.map fun p => findDifference p.1.1 p.1.2) (m.1, m.2.1))
termination_by sizeOf a
decreasing_by
  rename_i p
  rcases mem_common_diffMergeGo _ _ _ _ _ p.2 with h | ⟨⟨s, hs⟩, _⟩
  · simp at h
  · exact sizeOf_lt_of_mem_children hs

/-- Embedding of `MerkleTree::find_difference` (merkle_tree.rs 50-77): run the node-level
diff and return the two collections of entry paths.  The move-attribution loop
in the source only prints to stdout and does not change the returned value, so
it is omitted. -/
def MerkleTree.find_difference (t other : MerkleTree) :
    Option (List (List Seg) × List (List Seg)) :=
  match findDifference t.root other.root with
  | none => none
  | some (d1, d2) =>
    some (d1.map (fun p => p.2.2.get_path), d2.map (fun p => p.2.2.get_path))

/-! ### Unfolding lemmas for the two well-founded recursions -/

theorem diffMergeGo_nil_nil (d1 d2 : HashMapE) (c : List (TreeNode × TreeNode)) :
    diffMergeGo d1 d2 c [] [] = (d1, d2, c) := by rw [diffMergeGo]

theorem diffMergeGo_cons_nil (d1 d2 : HashMapE) (c : List (TreeNode × TreeNode))
    (k : Seg) (x : TreeNode) (ra : List (Seg × TreeNode)) :
    diffMergeGo d1 d2 c ((k, x) :: ra) [] =
      diffMergeGo (hmInsert x.hash (x.last_modified, x.data) d1) d2 c ra [] := by
  rw [diffMergeGo]

theorem diffMergeGo_nil_cons (d1 d2 : HashMapE) (c : List (TreeNode × TreeNode))
    (k : Seg) (y : TreeNode) (rb : List (Seg × TreeNode)) :
    diffMergeGo d1 d2 c [] ((k, y) :: rb) =
      diffMergeGo d1 (hmInsert y.hash (y.last_modified, y.data) d2) c [] rb := by
  rw [diffMergeGo]

theorem diffMergeGo_cons_cons_lt {ks ko : Seg} (h : segCmp ks ko = .lt)
    (d1 d2 : HashMapE) (c : List (TreeNode × TreeNode)) (x y : TreeNode)
    (ra rb : List (Seg × TreeNode)) :
    diffMergeGo d1 d2 c ((ks, x) :: ra) ((ko, y) :: rb) =
      diffMergeGo (hmInsert x.hash (x.last_modified, x.data) d1) d2 c ra ((ko, y) :: rb) := by
  rw [diffMergeGo, h]

theorem diffMergeGo_cons_cons_gt {ks ko : Seg} (h : segCmp ks ko = .gt)
    (d1 d2 : HashMapE) (c : List (TreeNode × TreeNode)) (x y : TreeNode)
    (ra rb : List (Seg × TreeNode)) :
    diffMergeGo d1 d2 c ((ks, x) :: ra) ((ko, y) :: rb) =
      diffMergeGo d1 (hmInsert y.hash (y.last_modified, y.data) d2) c ((ks, x) :: ra) rb := by
  rw [diffMergeGo, h]

theorem diffMergeGo_cons_cons_eq {ks ko : Seg} (h : segCmp ks ko = .eq)
    (d1 d2 : HashMapE) (c : List (TreeNode × TreeNode)) (x y : TreeNode)
    (ra rb : List (Seg × TreeNode)) :
    diffMergeGo d1 d2 c ((ks, x) :: ra) ((ko, y) :: rb) =
      diffMergeGo d1 d2 (c ++ [(x, y)]) ra rb := by
  rw [diffMergeGo, h]

theorem fd_attach_map (l : List (TreeNode × TreeNode)) :
    (l.attach.map fun p => findDifference p.1.1 p.1.2) = l.map fun p => findDifference p.1 p.2 :=
  List.attach_map_val l (fun p => findDifference p.1 p.2)

/-- One-step unfolding of `findDifference` with the `attach` of the
well-founded recursion eliminated. -/
theorem findDifference_unfold (a b : TreeNode) :
    findDifference a b =
      (if a.hash = b.hash then none
      else if a.children.isEmpty && b.children.isEmpty then
        if a.last_modified > b.last_modified then
          some ([(a.hash, (a.last_modified, a.data))], [])
        else
          some ([], [(b.hash, (a.last_modified, b.data))])
      else if a.children.isEmpty then
        some ([], collectChildren b.children)
      else if b.children.isEmpty then
        some (collectChildren a.children, [])
      else
        let m := diffMergeGo [] [] [] a.children b.children
        some (combineResults (m.2.2.map fun p => findDifference p.1 p.2) (m.1, m.2.1))) := by
  rw [findDifference]
  simp only [fd_attach_map]

/-! ### Invariant and measurement helpers (stated over the embedded code) -/

mutual

/-- Spec invariant 1, as a checker over the embedded tree: every node with at
least one child has `hash = blake3` of its children's `(hash ‖ segment)`
concatenation, recursively. -/
def interiorOk (blake3 : Bytes → Bytes) : TreeNode → Bool
  | .mk c _ h _ _ => (c.isEmpty || (h == blake3 (hashInput c))) && interiorOkChildren blake3 c

/-- Checks `interiorOk` for every node of a children list. -/
def interiorOkChildren (blake3 : Bytes → Bytes) : List (Seg × TreeNode) → Bool
  | [] => true
  | (_, t) :: rest => interiorOk blake3 t && interiorOkChildren blake3 rest

end

mutual

/-- All `last_modified` values appearing in a tree. -/
def nodeLms : TreeNode → List Nat
  | .mk c _ _ lm _ => lm :: nodeLmsChildren c

/-- All `last_modified` values appearing in a children list. -/
def nodeLmsChildren : List (Seg × TreeNode) → List Nat
  | [] => []
  | (_, t) :: rest => nodeLms t ++ nodeLmsChildren rest

end

/-- No node of `a` shares a `last_modified` value with a node of `b` (the
tie-free condition for the leaf-vs-leaf step of the diff). -/
def disjointLms (a b : TreeNode) : Bool :=
  (nodeLms a).all fun x => (nodeLms b).all fun y => x != y

/-! ### Scanner (`src/filesystem/scan.rs`) -/

/-- Embedding of `ignore::Match` as observed through `is_ignore()` / `is_whitelist()`. -/
inductive IgnoreMatch where
  | nothing
  | ignoreMatch
  | whitelistMatch
deriving DecidableEq, Repr

/-- Embedding of `Match::is_ignore`. -/
def IgnoreMatch.is_ignore : IgnoreMatch → Bool
  | .ignoreMatch => true
  | _ => false

/-- Embedding of `Match::is_whitelist`. -/
def IgnoreMatch.is_whitelist : IgnoreMatch → Bool
  | .whitelistMatch => true
  | _ => false

/-- A compiled `Gitignore` pattern set, abstracted to its observable behaviour:
`matched(path, is_dir)`. -/
structure Gitignore where
  matched : List Seg → Bool → IgnoreMatch

/-- Embedding of `JwalkState` (scan.rs 203-208): the global patterns, the stack of
per-directory `.gitignore`s (outermost first; the innermost is last, as the
walk pushes them), and whether the walk is inside a Git repository. -/
structure JwalkState where
  gitignore_global : Option Gitignore
  gitignore_files : List Gitignore
  is_in_git_repo : Bool

/-- Model of `iter().enumerate().find_map(...)` over a list: the index (counting from
`i`) of the first element satisfying `p`. -/
def firstLayerFrom (p : Gitignore → Bool) : List Gitignore → Nat → Option Nat
  | [], _ => none
  | g :: rest, i => if p g then some i else firstLayerFrom p rest (i + 1)

/-- Embedding of `should_retain_path` (scan.rs 142-186): outside a Git repository retain;
inside, find the innermost layer (index 0 = innermost, via `.iter().rev()`)
that ignores and the innermost that whitelists, then decide by the table. -/
def should_retain_path (path : List Seg) (isDir : Bool) (st : JwalkState) : Bool :=
  if !st.is_in_git_repo then true
  else
    let ignored_at_layer :=
      firstLayerFrom (fun g => (g.matched path isDir).is_ignore) st.gitignore_files.reverse 0
    let whitelisted_at_layer :=
      firstLayerFrom (fun g => (g.matched path isDir).is_whitelist) st.gitignore_files.reverse 0
    let is_ignored_by_global :=
      match st.gitignore_global with
      | none => false
      | some g => (g.matched path isDir).is_ignore
    match ignored_at_layer, whitelisted_at_layer with
    | none, none => !is_ignored_by_global
    | none, some _ => true
    | some _, none => false
    | some ignore_layer, some whitelist_layer => decide (whitelist_layer < ignore_layer)

/-! ### File hashing inputs (`src/filesystem/scan.rs` and `data.rs`) -/

/-- The byte sequence `walk_directory` (scan.rs 62-65) feeds to the BLAKE3
hasher for a file entry: `update_mmap_rayon(&filepath)` only — the file's
contents, without the basename. -/
def walkDirectoryFileHashInput (basename contents : Bytes) : Bytes :=
  contents

/-- The byte sequence `MerkleFile::from_path` (data.rs 26-30) feeds to the
BLAKE3 hasher: `update(file_name)` then `update_mmap_rayon(&path)` — the
basename followed by the file's contents. -/
def merkleFileFromPathHashInput (basename contents : Bytes) : Bytes :=
  basename ++ contents

/-- The hash `walk_directory` stores in an emitted `MerkleEntry::File`. -/
def walkDirectoryFileHash (blake3 : Bytes → Bytes) (basename contents : Bytes) : Bytes :=
  blake3 (walkDirectoryFileHashInput basename contents)

/-- The hash `MerkleFile::from_path` stores. -/
def merkleFileFromPathHash (blake3 : Bytes → Bytes) (basename contents : Bytes) : Bytes :=
  blake3 (merkleFileFromPathHashInput basename contents)

/-! ### Concrete material for closed evaluations -/

/-- Concrete stand-in for the abstract BLAKE3 function in closed evaluations:
the identity on byte strings.  It is injective, which is the property of the
real BLAKE3 the spec relies on (collisions are "treated as cryptographically
improbable"). -/
def bid : Bytes → Bytes := fun b => b

/-- Root entry of the worked examples (segment `"r"` = `[114]`, hash `[7]`). -/
def rootEntry : MerkleEntry := .directory [[114]] 0 [7]

/-- File entry at path `r/a`, last-modified 100, hash `H_a = [1]`. -/
def entryA : MerkleEntry := .file [[114], [97]] 100 1 [1]

/-- File entry at path `r/b`, last-modified 50, hash `H_b = [2]`. -/
def entryB : MerkleEntry := .file [[114], [98]] 50 1 [2]

/-- Leaf node for `"a"` (`[97]`). -/
def leafA : TreeNode := .mk [] [97] [1] 100 entryA

/-- Leaf node for `"b"` (`[98]`). -/
def leafB : TreeNode := .mk [] [98] [2] 50 entryB

/-- Spec scenario 2: under root `"r"`, the leaves `"a"` (hash `[1]`) and `"b"`
(hash `[2]`) are both present; the root hash is
`bid(H_a ‖ "a" ‖ H_b ‖ "b") = [1, 97, 2, 98]`. -/
def twoLeafRoot : TreeNode :=
  .mk [([97], leafA), ([98], leafB)] [114] [1, 97, 2, 98] 6 rootEntry

/-- The root produced by `remove(["a"])` on `twoLeafRoot`: the child is gone
but, `remove` having returned before `recompute_node`, the hash and
last-modified are unchanged. -/
def twoLeafRootAfterRemove : TreeNode :=
  .mk [([98], leafB)] [114] [1, 97, 2, 98] 6 rootEntry

/-- Updated entry for `"a"`: last-modified 120, hash `[9]`. -/
def entryA2 : MerkleEntry := .file [[114], [97]] 120 1 [9]

/-- Building scenario 2 by the public operations: on a fresh root, insert
`["b"]` then `["a"]`; each insertion recomputes the root, ending at
`twoLeafRoot` (root hash `BLAKE3(H_a ‖ "a" ‖ H_b ‖ "b")`, sorted by key). -/
theorem twoLeafRoot_built_by_insert :
    (TreeNode.insert bid 5 [[98]] (MerkleTree.new [114] rootEntry).root entryB).bind
      (fun t => TreeNode.insert bid 6 [[97]] t entryA) = .ok twoLeafRoot := rfl

/-! ### C1 -/

/-- C1 (code_bug evidence).  The claim: after every public mutating
operation, every interior node's hash is the BLAKE3 of its children's
`(hash ‖ segment)` concatenation.  The code violates it on `remove`: the
branch of `TreeNode::remove` that detaches the child returns before
`recompute_node`, so removing `"a"` from the two-leaf tree leaves the root —
now with the single child `"b"` — still carrying the stale two-child hash.
Before the removal the invariant holds; after it, it does not. -/
theorem C1_remove_breaks_interior_invariant :
    TreeNode.remove bid 7 [[97]] twoLeafRoot = .ok twoLeafRootAfterRemove ∧
    interiorOk bid twoLeafRoot = true ∧
    interiorOk bid twoLeafRootAfterRemove = false :=
  ⟨rfl, by decide, by decide⟩

/-! ### C2 -/

/-- C2 (code_bug evidence).  The claim (spec scenario 3): removing
`["a"]` leaves the root hash at `BLAKE3(H_b ‖ "b")` and re-inserting restores
`BLAKE3(H_a ‖ "a" ‖ H_b ‖ "b")`.  In the code the removal does not recompute
the parent: the root hash stays at the old two-child value
`[1, 97, 2, 98] ≠ BLAKE3(H_b ‖ "b") = [2, 98]`.  (Re-insertion does recompute
and lands on the scenario-2 value, trivially, since the hash never changed.) -/
theorem C2_remove_does_not_restore_hash :
    TreeNode.remove bid 7 [[97]] twoLeafRoot = .ok twoLeafRootAfterRemove ∧
    twoLeafRootAfterRemove.hash = [1, 97, 2, 98] ∧
    bid (hashInput twoLeafRootAfterRemove.children) = [2, 98] ∧
    twoLeafRootAfterRemove.hash ≠ bid (hashInput twoLeafRootAfterRemove.children) ∧
    TreeNode.insert bid 8 [[97]] twoLeafRootAfterRemove entryA =
      .ok (.mk [([97], leafA), ([98], leafB)] [114] [1, 97, 2, 98] 8 rootEntry) :=
  ⟨rfl, rfl, rfl, by decide, rfl⟩

/-! ### C5 -/

/-- C5 (code_bug evidence).  The claim: `update` on a leaf replaces the
Entry *and sets the node's hash to `entry.hash`*.  The code's
`TreeNode::update` base case only replaces `self.data`; the leaf keeps hash
`[1]` although the new entry's hash is `[9]` (and the subsequent ancestor
recomputation therefore also reproduces the old root hash). -/
theorem C5_update_leaves_leaf_hash_unchanged :
    TreeNode.update bid 9 [[97]] twoLeafRoot entryA2 =
      .ok (.mk [([97], .mk [] [97] [1] 100 entryA2), ([98], leafB)] [114]
        [1, 97, 2, 98] 9 rootEntry) ∧
    entryA2.get_hash = [9] ∧
    ([1] : Bytes) ≠ [9] :=
  ⟨rfl, rfl, by decide⟩

/-! ### C8 -/

/-- C8 (code_bug evidence).  The claim: every file entry's hash is
BLAKE3 of `basename ‖ contents`.  `MerkleFile::from_path` does hash
`basename ‖ contents`, but the scanner's `walk_directory` hashes the file
contents only — for basename `[97]` and contents `[5, 6]` the two hasher
inputs differ. -/
theorem C8_scanner_omits_basename :
    walkDirectoryFileHash bid [97] [5, 6] = bid [5, 6] ∧
    merkleFileFromPathHash bid [97] [5, 6] = bid [97, 5, 6] ∧
    walkDirectoryFileHashInput [97] [5, 6] ≠ merkleFileFromPathHashInput [97] [5, 6] :=
  ⟨rfl, rfl, by decide⟩

/-! ### C3: navigation failures -/

/-- Some non-final segment of the sequence is absent at its level of the
tree (the navigation paths on which all four operations dereference a missing
child). -/
def absentIntermediate : TreeNode → List Seg → Bool
  | _, [] => false
  | _, [_] => false
  | n, s :: rest =>
    match btGet s n.children with
    | none => true
    | some c => absentIntermediate c rest

/-- C3 (counterexample).  The claim: on a missing segment the operations
return a `NotFound` error.  On the two-leaf tree, looking up the absent
segment `[99]` makes every operation hit `expect("not such node")` — the
embedded panic — and in particular `get` does not produce `NotFound`. -/
theorem C3_counterexample :
    TreeNode.get [[99]] twoLeafRoot = .error .expectNoSuchNode ∧
    TreeNode.get [[99]] twoLeafRoot ≠ .error .notFound ∧
    TreeNode.update bid 9 [[99]] twoLeafRoot entryA2 = .error .expectNoSuchNode ∧
    TreeNode.remove bid 9 [[99]] twoLeafRoot = .error .expectNoSuchNode ∧
    TreeNode.insert bid 9 [[99], [0]] twoLeafRoot entryA2 = .error .expectNoSuchNode := by
  refine ⟨rfl, ?_, rfl, rfl, rfl⟩
  intro h
  rw [show TreeNode.get [[99]] twoLeafRoot = Except.error TreeErr.expectNoSuchNode from rfl] at h
  injection h with h2
  exact TreeErr.noConfusion h2

/-- Unfolding of `absentIntermediate` on a path of length at least two. -/
theorem absentIntermediate_cons_cons (n : TreeNode) (s s2 : Seg) (rest : List Seg) :
    absentIntermediate n (s :: s2 :: rest) =
      match btGet s n.children with
      | none => true
      | some c => absentIntermediate c (s2 :: rest) := rfl

/-- Unfolding of `TreeNode.get` on a non-empty path. -/
theorem get_cons (s : Seg) (rest : List Seg) (n : TreeNode) :
    TreeNode.get (s :: rest) n =
      match btGet s n.children with
      | none => .error .expectNoSuchNode
      | some c => TreeNode.get rest c := rfl

/-- Unfolding of `TreeNode.insert` on a path of length at least two. -/
theorem insert_cons_cons (f : Bytes → Bytes) (now : Nat) (s s2 : Seg)
    (rest : List Seg) (n : TreeNode) (e : MerkleEntry) :
    TreeNode.insert f now (s :: s2 :: rest) n e =
      match btGet s n.children with
      | none => .error .expectNoSuchNode
      | some c =>
        match TreeNode.insert f now (s2 :: rest) c e with
        | .error err => .error err
        | .ok c2 =>
          .ok (TreeNode.recompute_node f now
            (.mk (btInsert s c2 n.children) n.segment n.hash n.last_modified n.data)) := rfl

/-- Unfolding of `TreeNode.update` on a non-empty path. -/
theorem update_cons (f : Bytes → Bytes) (now : Nat) (s : Seg)
    (rest : List Seg) (n : TreeNode) (e : MerkleEntry) :
    TreeNode.update f now (s :: rest) n e =
      match btGet s n.children with
      | none => .error .expectNoSuchNode
      | some c =>
        match TreeNode.update f now rest c e with
        | .error err => .error err
        | .ok c2 =>
          .ok (TreeNode.recompute_node f now
            (.mk (btInsert s c2 n.children) n.segment n.hash n.last_modified n.data)) := rfl

/-- Unfolding of `TreeNode.remove` on a path of length at least two. -/
theorem remove_cons_cons (f : Bytes → Bytes) (now : Nat) (s s2 : Seg)
    (rest : List Seg) (n : TreeNode) :
    TreeNode.remove f now (s :: s2 :: rest) n =
      match btGet s n.children with
      | none => .error .expectNoSuchNode
      | some c =>
        match TreeNode.remove f now (s2 :: rest) c with
        | .error err => .error err
        | .ok c2 =>
          .ok (TreeNode.recompute_node f now
            (.mk (btInsert s c2 n.children) n.segment n.hash n.last_modified n.data)) := rfl

/-- C3 (amended).  Whenever the segment sequence contains a non-final
segment absent at its level, each of `get`, `insert`, `update` and `remove`
panics with `"not such node"` (the `expectNoSuchNode` outcome); none of them
returns a `NotFound` error value — the code has no error values at all. -/
theorem C3_amended (blake3 : Bytes → Bytes) (now : Nat) (e : MerkleEntry) :
    ∀ (segs : List Seg) (n : TreeNode), absentIntermediate n segs = true →
      TreeNode.get segs n = .error .expectNoSuchNode ∧
      TreeNode.insert blake3 now segs n e = .error .expectNoSuchNode ∧
      TreeNode.update blake3 now segs n e = .error .expectNoSuchNode ∧
      TreeNode.remove blake3 now segs n = .error .expectNoSuchNode := by
  intro segs
  induction segs with
  | nil => intro n h; simp [absentIntermediate] at h
  | cons s rest ih =>
    intro n h
    cases rest with
    | nil => simp [absentIntermediate] at h
    | cons s2 rest2 =>
      rw [absentIntermediate_cons_cons] at h
      cases hbt : btGet s n.children with
      | none =>
        refine ⟨?_, ?_, ?_, ?_⟩
        · rw [get_cons, hbt]
        · rw [insert_cons_cons, hbt]
        · rw [update_cons, hbt]
        · rw [remove_cons_cons, hbt]
      | some c =>
        rw [hbt] at h
        obtain ⟨h1, h2, h3, h4⟩ := ih c h
        refine ⟨?_, ?_, ?_, ?_⟩
        · rw [get_cons, hbt]; exact h1
        · rw [insert_cons_cons]
          split
          · rfl
          · rename_i c2 heq
            rw [hbt] at heq
            cases heq
            rw [h2]
        · rw [update_cons]
          split
          · rfl
          · rename_i c2 heq
            rw [hbt] at heq
            cases heq
            rw [h3]
        · rw [remove_cons_cons]
          split
          · rfl
          · rename_i c2 heq
            rw [hbt] at heq
            cases heq
            rw [h4]

/-- Witness for `C3_amended` at the two-leaf tree and the sequence
`[[99], [0]]`, whose first segment is absent. -/
theorem C3_amended_witness :
    absentIntermediate twoLeafRoot [[99], [0]] = true ∧
    (TreeNode.get [[99], [0]] twoLeafRoot = .error .expectNoSuchNode ∧
     TreeNode.insert bid 0 [[99], [0]] twoLeafRoot entryA = .error .expectNoSuchNode ∧
     TreeNode.update bid 0 [[99], [0]] twoLeafRoot entryA = .error .expectNoSuchNode ∧
     TreeNode.remove bid 0 [[99], [0]] twoLeafRoot = .error .expectNoSuchNode) :=
  ⟨by decide, C3_amended bid 0 entryA [[99], [0]] twoLeafRoot (by decide)⟩

/-! ### C4: insert on an existing key -/

/-- The step `recompute_node` never changes the children map. -/
theorem recompute_node_children (f : Bytes → Bytes) (now : Nat) (t : TreeNode) :
    (TreeNode.recompute_node f now t).children = t.children := by
  cases t with
  | mk c s h lm d =>
    simp only [TreeNode.recompute_node]
    split <;> rfl

/-- The comparison `segCmp` is reflexive. -/
theorem segCmp_self : ∀ k : Seg, segCmp k k = .eq := by
  intro k
  induction k with
  | nil => rfl
  | cons a ra ih =>
    rw [segCmp]
    have : compare a a = Ordering.eq := by
      simp [Nat.compare_eq_eq]
    rw [this]
    exact ih

/-- Looking up a key right after inserting it finds the inserted value. -/
theorem btGet_btInsert_self (k : Seg) (v : TreeNode) :
    ∀ l, btGet k (btInsert k v l) = some v := by
  intro l
  induction l with
  | nil => simp [btInsert, btGet, segCmp_self]
  | cons p rest ih =>
    obtain ⟨k2, v2⟩ := p
    rw [btInsert]
    cases hc : segCmp k k2 with
    | lt => simp [btGet, segCmp_self]
    | eq => simp [btGet, segCmp_self]
    | gt => simp [btGet, hc, ih]

/-- C4 (counterexample).  The claim: inserting under an existing last
segment fails with `AlreadyExists`.  On the two-leaf tree, inserting `["a"]`
again (entry hash `[9]`) succeeds and silently replaces the old child
(`BTreeMap::insert` overwrite), recomputing the root over the new child
hash. -/
theorem C4_counterexample :
    TreeNode.insert bid 5 [[97]] twoLeafRoot entryA2 =
      .ok (.mk [([97], .mk [] [97] [9] 120 entryA2), ([98], leafB)] [114]
        [9, 97, 2, 98] 5 rootEntry) ∧
    TreeNode.insert bid 5 [[97]] twoLeafRoot entryA2 ≠ .error .alreadyExists := by
  refine ⟨rfl, ?_⟩
  intro h
  rw [show TreeNode.insert bid 5 [[97]] twoLeafRoot entryA2 =
    .ok (.mk [([97], .mk [] [97] [9] 120 entryA2), ([98], leafB)] [114]
      [9, 97, 2, 98] 5 rootEntry) from rfl] at h
  exact Except.noConfusion h

/-- C4 (amended).  When the last segment is already a key of the node at
the prefix, `insert` does not fail: it succeeds and replaces the existing
child with a fresh leaf built from the new entry (no `AlreadyExists` error
exists in the code). -/
theorem C4_amended (blake3 : Bytes → Bytes) (now : Nat) (e : MerkleEntry) :
    ∀ (pre : List Seg) (last : Seg) (n m old : TreeNode),
      TreeNode.get pre n = .ok m → btGet last m.children = some old →
      ∃ t', TreeNode.insert blake3 now (pre ++ [last]) n e = .ok t' ∧
        ∃ m', TreeNode.get pre t' = .ok m' ∧
          btGet last m'.children = some (.mk [] last e.get_hash e.get_last_modified e) := by
  intro pre
  induction pre with
  | nil =>
    intro last n m old hget hbt
    refine ⟨_, rfl, _, rfl, ?_⟩
    rw [recompute_node_children]
    exact btGet_btInsert_self last _ n.children
  | cons s pre2 ih =>
    intro last n m old hget hbt
    rw [TreeNode.get] at hget
    cases hc : btGet s n.children with
    | none => rw [hc] at hget; cases hget
    | some c =>
      rw [hc] at hget
      obtain ⟨t2, ht2, m2, hm2, hbt2⟩ := ih last c m old hget hbt
      obtain ⟨q, qs, hq⟩ : ∃ q qs, pre2 ++ [last] = q :: qs := by
        cases pre2 <;> exact ⟨_, _, rfl⟩
      refine ⟨TreeNode.recompute_node blake3 now
        (.mk (btInsert s t2 n.children) n.segment n.hash n.last_modified n.data), ?_, ?_⟩
      · show TreeNode.insert blake3 now (s :: (pre2 ++ [last])) n e = _
        rw [hq, insert_cons_cons]
        split
        · rename_i heq
          rw [hc] at heq
          cases heq
        · rename_i c9 heq
          rw [hc] at heq
          cases heq
          rw [← hq, ht2]
      · refine ⟨m2, ?_, hbt2⟩
        rw [TreeNode.get]
        rw [recompute_node_children]
        show (match btGet s (btInsert s t2 n.children) with
          | none => Except.error TreeErr.expectNoSuchNode
          | some c => TreeNode.get pre2 c) = _
        rw [btGet_btInsert_self]
        exact hm2

/-- Witness for `C4_amended`: re-inserting under the existing key `"a"` of the
two-leaf tree replaces the child with the fresh leaf for the new entry. -/
theorem C4_amended_witness :
    TreeNode.get [] twoLeafRoot = .ok twoLeafRoot ∧
    btGet [97] twoLeafRoot.children = some leafA ∧
    (∃ t', TreeNode.insert bid 5 ([] ++ [[97]]) twoLeafRoot entryA2 = .ok t' ∧
      ∃ m', TreeNode.get [] t' = .ok m' ∧
        btGet [97] m'.children =
          some (.mk [] [97] entryA2.get_hash entryA2.get_last_modified entryA2)) :=
  ⟨rfl, rfl, C4_amended bid 5 entryA2 [] [97] twoLeafRoot twoLeafRoot leafA rfl rfl⟩

/-! ### C9: the retention decision table -/

/-- Whether stack layer `i`, counting the innermost layer as 0 (the spec's
"innermost outward" numbering), marks the path as ignored. -/
def layerIgnores (st : JwalkState) (path : List Seg) (isDir : Bool) (i : Nat) : Bool :=
  ((st.gitignore_files.reverse.get? i).map fun g => (g.matched path isDir).is_ignore).getD false

/-- Whether stack layer `i` (0 = innermost) marks the path as whitelisted. -/
def layerWhitelists (st : JwalkState) (path : List Seg) (isDir : Bool) (i : Nat) : Bool :=
  ((st.gitignore_files.reverse.get? i).map fun g => (g.matched path isDir).is_whitelist).getD false

/-- Whether the global patterns mark the path as ignored
(`gitignore_global.is_some_and(|g| g.matched(..).is_ignore())`). -/
def globalIgnores (st : JwalkState) (path : List Seg) (isDir : Bool) : Bool :=
  match st.gitignore_global with
  | none => false
  | some g => (g.matched path isDir).is_ignore

/-- States that `o` is the index of the first layer satisfying `P` — the least such index —
or `none` when no layer satisfies it. -/
def IsLeastLayer (P : Nat → Bool) : Option Nat → Prop
  | none => ∀ i, P i = false
  | some i => P i = true ∧ ∀ j, j < i → P j = false

/-- Modelled from the spec: the retention decision table of §4.2, on the
innermost-first ignore and whitelist layer indices and the global-ignore
flag. -/
def specRetain (ignore_at whitelist_at : Option Nat) (global_ignored : Bool) : Bool :=
  match ignore_at, whitelist_at with
  | none, none => !global_ignored
  | none, some _ => true
  | some _, none => false
  | some ignore_layer, some whitelist_layer => decide (whitelist_layer < ignore_layer)

/-- Shifting the starting index of `firstLayerFrom` shifts its result. -/
theorem firstLayerFrom_shift (p : Gitignore → Bool) :
    ∀ (l : List Gitignore) (k : Nat),
      firstLayerFrom p l k = (firstLayerFrom p l 0).map (· + k) := by
  intro l
  induction l with
  | nil => intro k; rfl
  | cons g rest ih =>
    intro k
    rw [firstLayerFrom, firstLayerFrom]
    by_cases hp : p g
    · simp [hp]
    · simp only [hp, if_false, Bool.false_eq_true]
      rw [ih (k + 1), ih 1]
      cases firstLayerFrom p rest 0 <;> simp <;> omega

/-- The search `firstLayerFrom p l 0` finds exactly the least index whose element
satisfies `p` (and `none` exactly when no element does). -/
theorem firstLayerFrom_least (p : Gitignore → Bool) :
    ∀ l : List Gitignore,
      IsLeastLayer (fun i => ((l.get? i).map p).getD false) (firstLayerFrom p l 0) := by
  intro l
  induction l with
  | nil => intro i; simp
  | cons g rest ih =>
    rw [firstLayerFrom]
    by_cases hp : p g
    · simp only [hp, if_true]
      exact ⟨by simp [hp], fun j hj => absurd hj (Nat.not_lt_zero j)⟩
    · simp only [hp, if_false, Bool.false_eq_true]
      rw [firstLayerFrom_shift]
      cases ho : firstLayerFrom p rest 0 with
      | none =>
        rw [ho] at ih
        have ih' : ∀ i, ((rest.get? i).map p).getD false = false := ih
        show ∀ i, ((((g :: rest).get? i)).map p).getD false = false
        intro i
        cases i with
        | zero => simpa using hp
        | succ i => simpa using ih' i
      | some i =>
        rw [ho] at ih
        obtain ⟨ih1, ih2⟩ :
            ((rest.get? i).map p).getD false = true ∧
              ∀ j, j < i → ((rest.get? j).map p).getD false = false := ih
        show (((g :: rest).get? (i + 1)).map p).getD false = true ∧
          ∀ j, j < i + 1 → (((g :: rest).get? j).map p).getD false = false
        refine ⟨by simpa using ih1, fun j hj => ?_⟩
        cases j with
        | zero => simpa using hp
        | succ j => simpa using ih2 j (by omega)

/-- A predicate has at most one least-or-none index. -/
theorem isLeastLayer_unique {P : Nat → Bool} :
    ∀ {o1 o2 : Option Nat}, IsLeastLayer P o1 → IsLeastLayer P o2 → o1 = o2 := by
  intro o1 o2 h1 h2
  cases o1 with
  | none =>
    cases o2 with
    | none => rfl
    | some i =>
      have h1' : ∀ j, P j = false := h1
      obtain ⟨hpi, -⟩ : P i = true ∧ ∀ j, j < i → P j = false := h2
      rw [h1' i] at hpi
      exact absurd hpi (by simp)
  | some i =>
    cases o2 with
    | none =>
      have h2' : ∀ j, P j = false := h2
      obtain ⟨hpi, -⟩ : P i = true ∧ ∀ j, j < i → P j = false := h1
      rw [h2' i] at hpi
      exact absurd hpi (by simp)
    | some j =>
      obtain ⟨hpi, hmini⟩ : P i = true ∧ ∀ j2, j2 < i → P j2 = false := h1
      obtain ⟨hpj, hminj⟩ : P j = true ∧ ∀ j2, j2 < j → P j2 = false := h2
      rcases Nat.lt_trichotomy i j with h | h | h
      · rw [hminj i h] at hpi; exact absurd hpi (by simp)
      · rw [h]
      · rw [hmini j h] at hpj; exact absurd hpj (by simp)

/-- C9 (confirmed).  Inside a Git repository, with `iL` and `wL` the
innermost-first (0 = innermost) layer indices at which the path is ignored
resp. whitelisted, `should_retain_path` decides exactly per the table:
neither → retain iff not globally ignored; whitelist only → retain; ignore
only → drop; both → retain iff the whitelist layer is strictly closer in than
the ignore layer. -/
theorem C9_decision_table (st : JwalkState) (path : List Seg) (isDir : Bool)
    (iL wL : Option Nat) (hrepo : st.is_in_git_repo = true)
    (hIgn : IsLeastLayer (layerIgnores st path isDir) iL)
    (hWhite : IsLeastLayer (layerWhitelists st path isDir) wL) :
    should_retain_path path isDir st = specRetain iL wL (globalIgnores st path isDir) := by
  have hi : firstLayerFrom (fun g => (g.matched path isDir).is_ignore)
      st.gitignore_files.reverse 0 = iL :=
    isLeastLayer_unique
      (firstLayerFrom_least (fun g => (g.matched path isDir).is_ignore)
        st.gitignore_files.reverse) hIgn
  have hw : firstLayerFrom (fun g => (g.matched path isDir).is_whitelist)
      st.gitignore_files.reverse 0 = wL :=
    isLeastLayer_unique
      (firstLayerFrom_least (fun g => (g.matched path isDir).is_whitelist)
        st.gitignore_files.reverse) hWhite
  rw [should_retain_path, hrepo]
  simp only [Bool.not_true, Bool.false_eq_true, if_false]
  rw [hi, hw]
  cases iL <;> cases wL <;> rfl

/-- A pattern set ignoring every path. -/
def gIgnAll : Gitignore := ⟨fun _ _ => .ignoreMatch⟩

/-- A pattern set whitelisting every path. -/
def gWhiteAll : Gitignore := ⟨fun _ _ => .whitelistMatch⟩

/-- A walk state inside a repository with an outer whitelisting `.gitignore`
and an inner ignoring one (the stack stores outermost first). -/
def wStateEx : JwalkState := ⟨none, [gWhiteAll, gIgnAll], true⟩

/-- Witness for `C9_decision_table`: in `wStateEx` the path is ignored at
layer 0 (innermost) and whitelisted at layer 1, so it is dropped
(`1 < 0` fails). -/
theorem C9_decision_table_witness :
    wStateEx.is_in_git_repo = true ∧
    IsLeastLayer (layerIgnores wStateEx [[5]] false) (some 0) ∧
    IsLeastLayer (layerWhitelists wStateEx [[5]] false) (some 1) ∧
    should_retain_path [[5]] false wStateEx =
      specRetain (some 0) (some 1) (globalIgnores wStateEx [[5]] false) :=
  ⟨rfl, ⟨by decide, by decide⟩, ⟨by decide, by decide⟩,
    C9_decision_table wStateEx [[5]] false (some 0) (some 1) rfl
      ⟨by decide, by decide⟩ ⟨by decide, by decide⟩⟩

/-! ### C10: the change maps are keyed by hash, one entry per hash -/

/-- Keys of `hmInsert`: the inserted key or an old key. -/
theorem hmInsert_keys_subset (k : Bytes) (v : Nat × MerkleEntry) :
    ∀ (m : HashMapE) (k2 : Bytes), k2 ∈ (hmInsert k v m).map Prod.fst →
      k2 = k ∨ k2 ∈ m.map Prod.fst := by
  intro m
  induction m with
  | nil => intro k2 h; simp [hmInsert] at h; exact Or.inl h
  | cons p t ih =>
    obtain ⟨kh, vh⟩ := p
    intro k2 h
    rw [hmInsert] at h
    by_cases hk : k = kh
    · simp only [hk, if_true] at h
      rcases List.mem_cons.mp h with h2 | h2
      · exact Or.inl (hk ▸ h2)
      · exact Or.inr (List.mem_cons_of_mem _ h2)
    · simp only [hk, if_false] at h
      rcases List.mem_cons.mp h with h2 | h2
      · exact Or.inr (by simp [h2])
      · rcases ih k2 h2 with h3 | h3
        · exact Or.inl h3
        · exact Or.inr (List.mem_cons_of_mem _ h3)

/-- The map insert `hmInsert` preserves distinctness of the keys. -/
theorem hmInsert_keys_nodup (k : Bytes) (v : Nat × MerkleEntry) :
    ∀ m : HashMapE, (m.map Prod.fst).Nodup → ((hmInsert k v m).map Prod.fst).Nodup := by
  intro m
  induction m with
  | nil => intro _; simp [hmInsert]
  | cons p t ih =>
    obtain ⟨kh, vh⟩ := p
    intro hn
    simp only [List.map_cons, List.nodup_cons] at hn
    rw [hmInsert]
    by_cases hk : k = kh
    · simp only [hk, if_true, List.map_cons, List.nodup_cons]
      exact ⟨hk ▸ hn.1, hn.2⟩
    · simp only [hk, if_false, List.map_cons, List.nodup_cons]
      refine ⟨fun hmem => ?_, ih hn.2⟩
      rcases hmInsert_keys_subset k v t kh hmem with h3 | h3
      · exact hk h3.symm
      · exact hn.1 h3

/-- The fold `hmExtend` preserves distinctness of the keys of the accumulator. -/
theorem hmExtend_keys_nodup :
    ∀ (c m : HashMapE), (m.map Prod.fst).Nodup → ((hmExtend m c).map Prod.fst).Nodup := by
  intro c
  induction c with
  | nil => intro m hm; exact hm
  | cons p t ih =>
    intro m hm
    rw [hmExtend] at *
    simp only [List.foldl_cons]
    exact ih _ (hmInsert_keys_nodup p.1 p.2 m hm)

/-- The one-sided collection of a children map has distinct keys. -/
theorem collectChildren_keys_nodup (c : List (Seg × TreeNode)) :
    ((collectChildren c).map Prod.fst).Nodup := by
  rw [collectChildren]
  suffices h : ∀ (l : List (Seg × TreeNode)) (acc : HashMapE), (acc.map Prod.fst).Nodup →
      (((l.foldl (fun acc p => hmInsert p.2.hash (p.2.last_modified, p.2.data) acc) acc)).map
        Prod.fst).Nodup by
    exact h c [] (by simp)
  intro l
  induction l with
  | nil => intro acc hacc; exact hacc
  | cons p t ih =>
    intro acc hacc
    simp only [List.foldl_cons]
    exact ih _ (hmInsert_keys_nodup _ _ _ hacc)

/-- The merge loop preserves distinctness of both accumulators' keys. -/
theorem diffMergeGo_keys_nodup :
    ∀ (d1 d2 : HashMapE) (com : List (TreeNode × TreeNode))
      (la lb : List (Seg × TreeNode)),
      (d1.map Prod.fst).Nodup → (d2.map Prod.fst).Nodup →
      (((diffMergeGo d1 d2 com la lb).1.map Prod.fst).Nodup ∧
        ((diffMergeGo d1 d2 com la lb).2.1.map Prod.fst).Nodup) := by
  intro d1 d2 com la lb
  induction d1, d2, com, la, lb using diffMergeGo.induct with
  | case1 d1 d2 com => intro h1 h2; rw [diffMergeGo_nil_nil]; exact ⟨h1, h2⟩
  | case2 d1 d2 com k a ra ih =>
    intro h1 h2
    rw [diffMergeGo_cons_nil]
    exact ih (hmInsert_keys_nodup _ _ _ h1) h2
  | case3 d1 d2 com k a rb ih =>
    intro h1 h2
    rw [diffMergeGo_nil_cons]
    exact ih h1 (hmInsert_keys_nodup _ _ _ h2)
  | case4 d1 d2 com ks a ra ko b rb hcmp ih =>
    intro h1 h2
    rw [diffMergeGo_cons_cons_lt hcmp]
    exact ih (hmInsert_keys_nodup _ _ _ h1) h2
  | case5 d1 d2 com ks a ra ko b rb hcmp ih =>
    intro h1 h2
    rw [diffMergeGo_cons_cons_gt hcmp]
    exact ih h1 (hmInsert_keys_nodup _ _ _ h2)
  | case6 d1 d2 com ks a ra ko b rb hcmp ih =>
    intro h1 h2
    rw [diffMergeGo_cons_cons_eq hcmp]
    exact ih h1 h2

/-- Folding the recursive results preserves distinctness of both sides'
keys. -/
theorem combineResults_keys_nodup :
    ∀ (rs : List (Option (HashMapE × HashMapE))) (acc : HashMapE × HashMapE),
      (acc.1.map Prod.fst).Nodup → (acc.2.map Prod.fst).Nodup →
      (((combineResults rs acc).1.map Prod.fst).Nodup ∧
        ((combineResults rs acc).2.map Prod.fst).Nodup) := by
  intro rs
  induction rs with
  | nil => intro acc h1 h2; exact ⟨h1, h2⟩
  | cons r t ih =>
    intro acc h1 h2
    obtain ⟨d1, d2⟩ := acc
    cases r with
    | none => rw [combineResults]; exact ih _ h1 h2
    | some p =>
      obtain ⟨c1, c2⟩ := p
      rw [combineResults]
      exact ih _ (hmExtend_keys_nodup c1 d1 h1) (hmExtend_keys_nodup c2 d2 h2)

/-- Each returned change map has pairwise-distinct hash keys (so each side of
the diff carries at most one entry — hence at most one path — per content
hash). -/
def diffDedupOk : Option (HashMapE × HashMapE) → Prop
  | none => True
  | some (d1, d2) => (d1.map Prod.fst).Nodup ∧ (d2.map Prod.fst).Nodup

/-- C10 (confirmed).  Both change maps returned by the node-level diff are
keyed by content hash with pairwise-distinct keys: two distinct changed nodes
with equal hashes can contribute at most one entry, hence at most one path, to
each side (`MerkleTree::find_difference` returns exactly one path per map
entry). -/
theorem C10_diff_deduplicated_by_hash (a b : TreeNode) :
    diffDedupOk (findDifference a b) := by
  rw [findDifference_unfold]
  split_ifs with h1 h2 h3 h4 h5
  · trivial
  · exact ⟨by simp, by simp⟩
  · exact ⟨by simp, by simp⟩
  · exact ⟨by simp, collectChildren_keys_nodup _⟩
  · exact ⟨collectChildren_keys_nodup _, by simp⟩
  · show diffDedupOk (some (combineResults _ (_, _)))
    have hm := diffMergeGo_keys_nodup [] [] [] a.children b.children (by simp) (by simp)
    exact combineResults_keys_nodup _ _ hm.1 hm.2

/-! ### C6: what a one-sided key contributes to the diff -/

/-- The inserted key is among the keys after `hmInsert`. -/
theorem hmInsert_self_mem (k : Bytes) (v : Nat × MerkleEntry) :
    ∀ m : HashMapE, k ∈ (hmInsert k v m).map Prod.fst := by
  intro m
  induction m with
  | nil => simp [hmInsert]
  | cons p t ih =>
    obtain ⟨kh, vh⟩ := p
    rw [hmInsert]
    by_cases hk : k = kh
    · simp [hk]
    · simp only [hk, if_false, List.map_cons, List.mem_cons]
      exact Or.inr ih

/-- The map insert `hmInsert` keeps every existing key. -/
theorem hmInsert_keys_mono (k : Bytes) (v : Nat × MerkleEntry) :
    ∀ (m : HashMapE) (k2 : Bytes), k2 ∈ m.map Prod.fst →
      k2 ∈ (hmInsert k v m).map Prod.fst := by
  intro m
  induction m with
  | nil => intro k2 h; simp at h
  | cons p t ih =>
    obtain ⟨kh, vh⟩ := p
    intro k2 h
    rcases List.mem_cons.mp h with h2 | h2
    · rw [hmInsert]
      by_cases hk : k = kh
      · simp [hk, h2]
      · simp [hk, h2]
    · rw [hmInsert]
      by_cases hk : k = kh
      · simp only [hk, if_true, List.map_cons, List.mem_cons]
        exact Or.inr h2
      · simp only [hk, if_false, List.map_cons, List.mem_cons]
        exact Or.inr (ih k2 h2)

/-- The fold `hmExtend` keeps every key of the accumulator. -/
theorem hmExtend_keys_mono :
    ∀ (c m : HashMapE) (k : Bytes), k ∈ m.map Prod.fst →
      k ∈ (hmExtend m c).map Prod.fst := by
  intro c
  induction c with
  | nil => intro m k h; exact h
  | cons p t ih =>
    intro m k h
    rw [hmExtend] at *
    simp only [List.foldl_cons]
    exact ih _ k (hmInsert_keys_mono p.1 p.2 m k h)

/-- The fold `combineResults` keeps every key of the left accumulator. -/
theorem combineResults_keys_mono_left :
    ∀ (rs : List (Option (HashMapE × HashMapE))) (acc : HashMapE × HashMapE) (k : Bytes),
      k ∈ acc.1.map Prod.fst → k ∈ (combineResults rs acc).1.map Prod.fst := by
  intro rs
  induction rs with
  | nil => intro acc k h; exact h
  | cons r t ih =>
    intro acc k h
    obtain ⟨d1, d2⟩ := acc
    cases r with
    | none => rw [combineResults]; exact ih _ k h
    | some p =>
      obtain ⟨c1, c2⟩ := p
      rw [combineResults]
      exact ih _ k (hmExtend_keys_mono c1 d1 k h)

/-- The fold `combineResults` keeps every key of the right accumulator. -/
theorem combineResults_keys_mono_right :
    ∀ (rs : List (Option (HashMapE × HashMapE))) (acc : HashMapE × HashMapE) (k : Bytes),
      k ∈ acc.2.map Prod.fst → k ∈ (combineResults rs acc).2.map Prod.fst := by
  intro rs
  induction rs with
  | nil => intro acc k h; exact h
  | cons r t ih =>
    intro acc k h
    obtain ⟨d1, d2⟩ := acc
    cases r with
    | none => rw [combineResults]; exact ih _ k h
    | some p =>
      obtain ⟨c1, c2⟩ := p
      rw [combineResults]
      exact ih _ k (hmExtend_keys_mono c2 d2 k h)

/-- The merge loop keeps every key of the left accumulator. -/
theorem diffMergeGo_keys_mono_left :
    ∀ (d1 d2 : HashMapE) (com : List (TreeNode × TreeNode))
      (la lb : List (Seg × TreeNode)) (k : Bytes), k ∈ d1.map Prod.fst →
      k ∈ (diffMergeGo d1 d2 com la lb).1.map Prod.fst := by
  intro d1 d2 com la lb
  induction d1, d2, com, la, lb using diffMergeGo.induct with
  | case1 d1 d2 com => intro k h; rw [diffMergeGo_nil_nil]; exact h
  | case2 d1 d2 com ka a ra ih =>
    intro k h
    rw [diffMergeGo_cons_nil]
    exact ih k (hmInsert_keys_mono _ _ _ k h)
  | case3 d1 d2 com ka a rb ih =>
    intro k h
    rw [diffMergeGo_nil_cons]
    exact ih k h
  | case4 d1 d2 com ks a ra ko b rb hcmp ih =>
    intro k h
    rw [diffMergeGo_cons_cons_lt hcmp]
    exact ih k (hmInsert_keys_mono _ _ _ k h)
  | case5 d1 d2 com ks a ra ko b rb hcmp ih =>
    intro k h
    rw [diffMergeGo_cons_cons_gt hcmp]
    exact ih k h
  | case6 d1 d2 com ks a ra ko b rb hcmp ih =>
    intro k h
    rw [diffMergeGo_cons_cons_eq hcmp]
    exact ih k h

/-- The merge loop keeps every key of the right accumulator. -/
theorem diffMergeGo_keys_mono_right :
    ∀ (d1 d2 : HashMapE) (com : List (TreeNode × TreeNode))
      (la lb : List (Seg × TreeNode)) (k : Bytes), k ∈ d2.map Prod.fst →
      k ∈ (diffMergeGo d1 d2 com la lb).2.1.map Prod.fst := by
  intro d1 d2 com la lb
  induction d1, d2, com, la, lb using diffMergeGo.induct with
  | case1 d1 d2 com => intro k h; rw [diffMergeGo_nil_nil]; exact h
  | case2 d1 d2 com ka a ra ih =>
    intro k h
    rw [diffMergeGo_cons_nil]
    exact ih k h
  | case3 d1 d2 com ka a rb ih =>
    intro k h
    rw [diffMergeGo_nil_cons]
    exact ih k (hmInsert_keys_mono _ _ _ k h)
  | case4 d1 d2 com ks a ra ko b rb hcmp ih =>
    intro k h
    rw [diffMergeGo_cons_cons_lt hcmp]
    exact ih k h
  | case5 d1 d2 com ks a ra ko b rb hcmp ih =>
    intro k h
    rw [diffMergeGo_cons_cons_gt hcmp]
    exact ih k (hmInsert_keys_mono _ _ _ k h)
  | case6 d1 d2 com ks a ra ko b rb hcmp ih =>
    intro k h
    rw [diffMergeGo_cons_cons_eq hcmp]
    exact ih k h

/-- The comparison `segCmp` only returns `eq` on equal segments. -/
theorem segCmp_eq_of_eq : ∀ {x y : Seg}, segCmp x y = .eq → x = y := by
  intro x
  induction x with
  | nil => intro y h; cases y with | nil => rfl | cons b rb => simp [segCmp] at h
  | cons a ra ih =>
    intro y h
    cases y with
    | nil => simp [segCmp] at h
    | cons b rb =>
      rw [segCmp] at h
      cases hc : compare a b with
      | eq =>
        rw [hc] at h
        have hab : a = b := Nat.compare_eq_eq.mp hc
        rw [hab, ih h]
      | lt => rw [hc] at h; cases h
      | gt => rw [hc] at h; cases h

/-- A key present in `la` and absent from `lb` puts its node's hash among the
left map's keys. -/
theorem diffMergeGo_unique_left :
    ∀ (d1 d2 : HashMapE) (com : List (TreeNode × TreeNode))
      (la lb : List (Seg × TreeNode)) (s : Seg) (x : TreeNode),
      (s, x) ∈ la → btGet s lb = none →
      x.hash ∈ (diffMergeGo d1 d2 com la lb).1.map Prod.fst := by
  intro d1 d2 com la lb
  induction d1, d2, com, la, lb using diffMergeGo.induct with
  | case1 d1 d2 com => intro s x hmem _; simp at hmem
  | case2 d1 d2 com ka a ra ih =>
    intro s x hmem hnone
    rw [diffMergeGo_cons_nil]
    rcases List.mem_cons.mp hmem with h2 | h2
    · have hx : x = a := congrArg Prod.snd h2
      rw [hx]
      exact diffMergeGo_keys_mono_left _ _ _ _ _ _ (hmInsert_self_mem a.hash _ d1)
    · exact ih s x h2 rfl
  | case3 d1 d2 com ka a rb ih =>
    intro s x hmem _; simp at hmem
  | case4 d1 d2 com ks a ra ko b rb hcmp ih =>
    intro s x hmem hnone
    rw [diffMergeGo_cons_cons_lt hcmp]
    rcases List.mem_cons.mp hmem with h2 | h2
    · have hx : x = a := congrArg Prod.snd h2
      rw [hx]
      exact diffMergeGo_keys_mono_left _ _ _ _ _ _ (hmInsert_self_mem a.hash _ d1)
    · exact ih s x h2 hnone
  | case5 d1 d2 com ks a ra ko b rb hcmp ih =>
    intro s x hmem hnone
    rw [diffMergeGo_cons_cons_gt hcmp]
    rw [btGet] at hnone
    cases hsc : segCmp s ko with
    | eq => rw [hsc] at hnone; cases hnone
    | lt => rw [hsc] at hnone; exact ih s x hmem hnone
    | gt => rw [hsc] at hnone; exact ih s x hmem hnone
  | case6 d1 d2 com ks a ra ko b rb hcmp ih =>
    intro s x hmem hnone
    rw [diffMergeGo_cons_cons_eq hcmp]
    rcases List.mem_cons.mp hmem with h2 | h2
    · exfalso
      have hs : s = ks := congrArg Prod.fst h2
      have hko : ks = ko := segCmp_eq_of_eq hcmp
      rw [btGet, hs, hko, segCmp_self] at hnone
      cases hnone
    · rw [btGet] at hnone
      cases hsc : segCmp s ko with
      | eq => rw [hsc] at hnone; cases hnone
      | lt => rw [hsc] at hnone; exact ih s x h2 hnone
      | gt => rw [hsc] at hnone; exact ih s x h2 hnone

/-- A key present in `lb` and absent from `la` puts its node's hash among the
right map's keys. -/
theorem diffMergeGo_unique_right :
    ∀ (d1 d2 : HashMapE) (com : List (TreeNode × TreeNode))
      (la lb : List (Seg × TreeNode)) (s : Seg) (y : TreeNode),
      (s, y) ∈ lb → btGet s la = none →
      y.hash ∈ (diffMergeGo d1 d2 com la lb).2.1.map Prod.fst := by
  intro d1 d2 com la lb
  induction d1, d2, com, la, lb using diffMergeGo.induct with
  | case1 d1 d2 com => intro s y hmem _; simp at hmem
  | case2 d1 d2 com ka a ra ih =>
    intro s y hmem _; simp at hmem
  | case3 d1 d2 com ka b rb ih =>
    intro s y hmem hnone
    rw [diffMergeGo_nil_cons]
    rcases List.mem_cons.mp hmem with h2 | h2
    · have hy : y = b := congrArg Prod.snd h2
      rw [hy]
      exact diffMergeGo_keys_mono_right _ _ _ _ _ _ (hmInsert_self_mem b.hash _ d2)
    · exact ih s y h2 rfl
  | case4 d1 d2 com ks a ra ko b rb hcmp ih =>
    intro s y hmem hnone
    rw [diffMergeGo_cons_cons_lt hcmp]
    rw [btGet] at hnone
    cases hsc : segCmp s ks with
    | eq => rw [hsc] at hnone; cases hnone
    | lt => rw [hsc] at hnone; exact ih s y hmem hnone
    | gt => rw [hsc] at hnone; exact ih s y hmem hnone
  | case5 d1 d2 com ks a ra ko b rb hcmp ih =>
    intro s y hmem hnone
    rw [diffMergeGo_cons_cons_gt hcmp]
    rcases List.mem_cons.mp hmem with h2 | h2
    · have hy : y = b := congrArg Prod.snd h2
      rw [hy]
      exact diffMergeGo_keys_mono_right _ _ _ _ _ _ (hmInsert_self_mem b.hash _ d2)
    · exact ih s y h2 hnone
  | case6 d1 d2 com ks a ra ko b rb hcmp ih =>
    intro s y hmem hnone
    rw [diffMergeGo_cons_cons_eq hcmp]
    rcases List.mem_cons.mp hmem with h2 | h2
    · exfalso
      have hs : s = ko := congrArg Prod.fst h2
      have hko : ks = ko := segCmp_eq_of_eq hcmp
      rw [btGet, hs, ← hko, segCmp_self] at hnone
      cases hnone
    · rw [btGet] at hnone
      cases hsc : segCmp s ks with
      | eq => rw [hsc] at hnone; cases hnone
      | lt => rw [hsc] at hnone; exact ih s y h2 hnone
      | gt => rw [hsc] at hnone; exact ih s y h2 hnone

/-- C6 (amended).  When diffing two interior nodes with different hashes,
a child key present in only one tree contributes that child node's own entry
(an entry keyed by the child's hash) to that side's change map — not the
collected leaves of the child's subtree. -/
theorem C6_amended (a b : TreeNode)
    (hhash : a.hash ≠ b.hash) (ha : a.children ≠ []) (hb : b.children ≠ []) :
    (∀ s x, (s, x) ∈ a.children → btGet s b.children = none →
      ∃ d1 d2, findDifference a b = some (d1, d2) ∧ x.hash ∈ d1.map Prod.fst) ∧
    (∀ s y, (s, y) ∈ b.children → btGet s a.children = none →
      ∃ d1 d2, findDifference a b = some (d1, d2) ∧ y.hash ∈ d2.map Prod.fst) := by
  have ha' : a.children.isEmpty = false := by
    cases hc : a.children with
    | nil => exact absurd hc ha
    | cons p t => rfl
  have hb' : b.children.isEmpty = false := by
    cases hc : b.children with
    | nil => exact absurd hc hb
    | cons p t => rfl
  rw [findDifference_unfold]
  simp only [if_neg hhash, ha', hb', Bool.false_and, Bool.false_eq_true, if_false]
  constructor
  · intro s x hmem hnone
    refine ⟨_, _, rfl, ?_⟩
    exact combineResults_keys_mono_left _ _ _
      (diffMergeGo_unique_left [] [] [] a.children b.children s x hmem hnone)
  · intro s y hmem hnone
    refine ⟨_, _, rfl, ?_⟩
    exact combineResults_keys_mono_right _ _ _
      (diffMergeGo_unique_right [] [] [] a.children b.children s y hmem hnone)

/-- Directory entry for the diff examples' root `"r"` (segment `[7]`). -/
def dirEntryR : MerkleEntry := .directory [[7]] 0 [8]

/-- File entry at `r/u`. -/
def entryU : MerkleEntry := .file [[7], [20]] 10 1 [3]

/-- Directory entry at `r/x`. -/
def entryX : MerkleEntry := .directory [[7], [24]] 0 [4]

/-- File entry at `r/x/y`. -/
def entryY : MerkleEntry := .file [[7], [24], [25]] 11 1 [5]

/-- File entry at `r/x/z`. -/
def entryZ : MerkleEntry := .file [[7], [24], [26]] 12 1 [6]

/-- Leaf for `u`. -/
def uLeaf : TreeNode := .mk [] [20] [3] 10 entryU

/-- Leaf for `y`. -/
def yLeaf : TreeNode := .mk [] [25] [5] 11 entryY

/-- Leaf for `z`. -/
def zLeaf : TreeNode := .mk [] [26] [6] 12 entryZ

/-- Interior node `x` with the two leaves `y`, `z` (hashes per `bid`). -/
def xNode : TreeNode := .mk [([25], yLeaf), ([26], zLeaf)] [24] [5, 25, 6, 26] 4 entryX

/-- Tree `A`: root with the single leaf child `u`. -/
def uRoot : TreeNode := .mk [([20], uLeaf)] [7] [3, 20] 1 dirEntryR

/-- Tree `B`: root with the single interior child `x` (subtree leaves `y`, `z`). -/
def xRoot : TreeNode := .mk [([24], xNode)] [7] [5, 25, 6, 26, 24] 4 dirEntryR

/-- Tree handle for `uRoot`. -/
def uTree : MerkleTree := ⟨uRoot⟩

/-- Tree handle for `xRoot`. -/
def xTree : MerkleTree := ⟨xRoot⟩

/-- The node-level diff of the two example trees: each side reports exactly
the one-sided child node itself. -/
theorem findDifference_uRoot_xRoot :
    findDifference uRoot xRoot =
      some ([([3], (10, entryU))], [([5, 25, 6, 26], (4, entryX))]) := by
  rw [findDifference_unfold]
  simp +decide [uRoot, xRoot, TreeNode.hash, TreeNode.children,
    TreeNode.last_modified, TreeNode.data, uLeaf, xNode,
    diffMergeGo_cons_cons_lt, diffMergeGo_cons_nil, diffMergeGo_nil_cons,
    diffMergeGo_nil_nil, combineResults, hmInsert, entryU, entryX]

/-- C6 (counterexample).  The claim: a child key present only in tree `B`
contributes the leaves of its entire subtree (here the paths `r/x/y` and
`r/x/z`) to the right change set.  In the code the right change set contains
only the path of the one-sided child `r/x` itself; neither leaf path below it
appears. -/
theorem C6_counterexample :
    MerkleTree.find_difference uTree xTree =
      some ([[[7], [20]]], [[[7], [24]]]) ∧
    entryY.get_path = [[7], [24], [25]] ∧
    entryZ.get_path = [[7], [24], [26]] ∧
    ([[7], [24], [25]] : List Seg) ∉ [([[7], [24]] : List Seg)] ∧
    ([[7], [24], [26]] : List Seg) ∉ [([[7], [24]] : List Seg)] := by
  have hwrap : MerkleTree.find_difference uTree xTree =
      (match findDifference uRoot xRoot with
        | none => none
        | some (d1, d2) =>
          some (d1.map (fun p => p.2.2.get_path), d2.map (fun p => p.2.2.get_path))) := rfl
  refine ⟨?_, rfl, rfl, by decide, by decide⟩
  rw [hwrap, findDifference_uRoot_xRoot]
  rfl

/-- Witness for `C6_amended` at the example trees: the key `u` present only
in tree `A` puts `u`'s own hash among the left map's keys. -/
theorem C6_amended_witness :
    uRoot.hash ≠ xRoot.hash ∧
    ([20], uLeaf) ∈ uRoot.children ∧
    btGet [20] xRoot.children = none ∧
    (∃ d1 d2, findDifference uRoot xRoot = some (d1, d2) ∧
      uLeaf.hash ∈ d1.map Prod.fst) :=
  ⟨by decide, List.mem_singleton.mpr rfl, rfl,
    (C6_amended uRoot xRoot (by decide) (by simp [uRoot, TreeNode.children])
        (by simp [xRoot, TreeNode.children])).1
      [20] uLeaf (List.mem_singleton.mpr rfl) rfl⟩

/-! ### C7: symmetry of the diff up to left/right swap -/

/-- Swapping the arguments of `segCmp` swaps the ordering. -/
theorem segCmp_swap : ∀ x y : Seg, segCmp y x = (segCmp x y).swap := by
  intro x
  induction x with
  | nil => intro y; cases y <;> rfl
  | cons a ra ih =>
    intro y
    cases y with
    | nil => rfl
    | cons b rb =>
      rw [segCmp, segCmp]
      have hba : compare b a = (compare a b).swap := (Nat.compare_swap a b).symm
      cases hc : compare a b with
      | eq => rw [hc] at hba; rw [hba]; exact ih rb
      | lt => rw [hc] at hba; rw [hba]; rfl
      | gt => rw [hc] at hba; rw [hba]; rfl

/-- A change map with the stored `last_modified` projected away (the diff's
output only uses the keys and the entries). -/
def hmStrip (m : HashMapE) : List (Bytes × MerkleEntry) :=
  m.map fun p => (p.1, p.2.2)

/-- The map insert `hmInsert` is congruent under `hmStrip`: the stored `last_modified` does
not influence the shape of the map. -/
theorem hmInsert_strip_congr :
    ∀ (m m' : HashMapE) (k : Bytes) (lm lm' : Nat) (e : MerkleEntry),
      hmStrip m = hmStrip m' →
      hmStrip (hmInsert k (lm, e) m) = hmStrip (hmInsert k (lm', e) m') := by
  intro m
  induction m with
  | nil =>
    intro m' k lm lm' e h
    have hm' : m' = [] := by
      cases m' with
      | nil => rfl
      | cons p t => simp [hmStrip] at h
    rw [hm']
    rfl
  | cons p t ih =>
    intro m' k lm lm' e h
    obtain ⟨kh, lh, eh⟩ := p
    cases m' with
    | nil => simp [hmStrip] at h
    | cons p' t' =>
      obtain ⟨kh', lh', eh'⟩ := p'
      have h' : (kh, eh) :: hmStrip t = (kh', eh') :: hmStrip t' := h
      injection h' with h1 ht
      injection h1 with hk he
      rw [hmInsert, hmInsert, ← hk]
      by_cases hkk : k = kh
      · rw [if_pos hkk, if_pos hkk]
        show (k, e) :: hmStrip t = (k, e) :: hmStrip t'
        exact congrArg (fun l => (k, e) :: l) ht
      · rw [if_neg hkk, if_neg hkk]
        show (kh, eh) :: hmStrip (hmInsert k (lm, e) t) =
          (kh, eh') :: hmStrip (hmInsert k (lm', e) t')
        rw [← he]
        exact congrArg (fun l => (kh, eh) :: l) (ih t' k lm lm' e ht)

/-- The fold `hmExtend` is congruent under `hmStrip`. -/
theorem hmExtend_strip_congr :
    ∀ (c c' m m' : HashMapE), hmStrip m = hmStrip m' → hmStrip c = hmStrip c' →
      hmStrip (hmExtend m c) = hmStrip (hmExtend m' c') := by
  intro c
  induction c with
  | nil =>
    intro c' m m' hm hc
    have hc' : c' = [] := by
      cases c' with
      | nil => rfl
      | cons p t => simp [hmStrip] at hc
    rw [hc']
    exact hm
  | cons p t ih =>
    intro c' m m' hm hc
    obtain ⟨kh, lh, eh⟩ := p
    cases c' with
    | nil => simp [hmStrip] at hc
    | cons p' t' =>
      obtain ⟨kh', lh', eh'⟩ := p'
      have hc' : (kh, eh) :: hmStrip t = (kh', eh') :: hmStrip t' := hc
      injection hc' with h1 ht
      injection h1 with hk he
      have hstep : hmStrip (hmInsert kh (lh, eh) m) = hmStrip (hmInsert kh' (lh', eh') m') := by
        rw [← hk, ← he]
        exact hmInsert_strip_congr m m' kh lh lh' eh hm
      show hmStrip (hmExtend (hmInsert kh (lh, eh) m) t) =
        hmStrip (hmExtend (hmInsert kh' (lh', eh') m') t')
      exact ih t' _ _ hstep ht

/-- Swapping the two children maps (and both accumulators) mirrors the merge
loop exactly. -/
theorem diffMergeGo_swap :
    ∀ (d1 d2 : HashMapE) (com : List (TreeNode × TreeNode))
      (la lb : List (Seg × TreeNode)),
      diffMergeGo d2 d1 (com.map Prod.swap) lb la =
        ((diffMergeGo d1 d2 com la lb).2.1,
          (diffMergeGo d1 d2 com la lb).1,
          (diffMergeGo d1 d2 com la lb).2.2.map Prod.swap) := by
  intro d1 d2 com la lb
  induction d1, d2, com, la, lb using diffMergeGo.induct with
  | case1 d1 d2 com => rw [diffMergeGo_nil_nil, diffMergeGo_nil_nil]
  | case2 d1 d2 com ka a ra ih =>
    rw [diffMergeGo_nil_cons, diffMergeGo_cons_nil]
    exact ih
  | case3 d1 d2 com ka b rb ih =>
    rw [diffMergeGo_cons_nil, diffMergeGo_nil_cons]
    exact ih
  | case4 d1 d2 com ks a ra ko b rb hcmp ih =>
    have hsw : segCmp ko ks = .gt := by rw [segCmp_swap, hcmp]; rfl
    rw [diffMergeGo_cons_cons_gt hsw, diffMergeGo_cons_cons_lt hcmp]
    exact ih
  | case5 d1 d2 com ks a ra ko b rb hcmp ih =>
    have hsw : segCmp ko ks = .lt := by rw [segCmp_swap, hcmp]; rfl
    rw [diffMergeGo_cons_cons_lt hsw, diffMergeGo_cons_cons_gt hcmp]
    exact ih
  | case6 d1 d2 com ks a ra ko b rb hcmp ih =>
    have hsw : segCmp ko ks = .eq := by rw [segCmp_swap, hcmp]; rfl
    rw [diffMergeGo_cons_cons_eq hsw, diffMergeGo_cons_cons_eq hcmp]
    rw [show com.map Prod.swap ++ [(b, a)] = (com ++ [(a, b)]).map Prod.swap by
      simp [List.map_append]]
    exact ih

/-- Folding strip-equal results into strip-swapped accumulators yields
strip-swapped outcomes. -/
theorem combineResults_strip_swap :
    ∀ (rs rs' : List (Option (HashMapE × HashMapE))) (acc acc' : HashMapE × HashMapE),
      rs'.map (Option.map fun p => (hmStrip p.1, hmStrip p.2)) =
        rs.map (Option.map fun p => (hmStrip p.2, hmStrip p.1)) →
      hmStrip acc'.1 = hmStrip acc.2 → hmStrip acc'.2 = hmStrip acc.1 →
      hmStrip (combineResults rs' acc').1 = hmStrip (combineResults rs acc).2 ∧
        hmStrip (combineResults rs' acc').2 = hmStrip (combineResults rs acc).1 := by
  intro rs
  induction rs with
  | nil =>
    intro rs' acc acc' hrs h1 h2
    have hrs' : rs' = [] := by
      cases rs' with
      | nil => rfl
      | cons o t => simp at hrs
    subst hrs'
    exact ⟨h1, h2⟩
  | cons o t ih =>
    intro rs' acc acc' hrs h1 h2
    cases rs' with
    | nil => simp at hrs
    | cons o' t' =>
      simp only [List.map_cons] at hrs
      injection hrs with ho ht
      obtain ⟨d1, d2⟩ := acc
      obtain ⟨d1', d2'⟩ := acc'
      cases o with
      | none =>
        have ho' : o' = none := by
          cases o' with
          | none => rfl
          | some p => simp at ho
        subst ho'
        rw [combineResults, combineResults]
        exact ih t' (d1, d2) (d1', d2') ht h1 h2
      | some p =>
        obtain ⟨c1, c2⟩ := p
        cases o' with
        | none => simp at ho
        | some p' =>
          obtain ⟨c1', c2'⟩ := p'
          simp only [Option.map_some'] at ho
          injection ho with hop
          injection hop with hc1 hc2
          rw [combineResults, combineResults]
          refine ih t' (hmExtend d1 c1, hmExtend d2 c2)
            (hmExtend d1' c1', hmExtend d2' c2') ht ?_ ?_
          · exact hmExtend_strip_congr c1' c2 d1' d2 h1 hc1
          · exact hmExtend_strip_congr c2' c1 d2' d1 h2 hc2

/-- A node's own `last_modified` is among its collected values. -/
theorem lm_mem_nodeLms (t : TreeNode) : t.last_modified ∈ nodeLms t := by
  cases t with
  | mk c s h lm d => exact List.mem_cons_self _ _

/-- The values of a child of a children list are among the list's values. -/
theorem nodeLms_children_subset :
    ∀ (c : List (Seg × TreeNode)) (s : Seg) (x : TreeNode), (s, x) ∈ c →
      ∀ v ∈ nodeLms x, v ∈ nodeLmsChildren c := by
  intro c
  induction c with
  | nil => intro s x h; simp at h
  | cons p t ih =>
    obtain ⟨s2, y⟩ := p
    intro s x h v hv
    rw [nodeLmsChildren]
    rcases List.mem_cons.mp h with h2 | h2
    · have hx : x = y := congrArg Prod.snd h2
      subst hx
      exact List.mem_append_left _ hv
    · exact List.mem_append_right _ (ih s x h2 v hv)

/-- The values of a child node are among its parent's values. -/
theorem nodeLms_child_subset {s : Seg} {x t : TreeNode} (h : (s, x) ∈ t.children) :
    ∀ v ∈ nodeLms x, v ∈ nodeLms t := by
  cases t with
  | mk c seg hh lm d =>
    intro v hv
    exact List.mem_cons_of_mem _ (nodeLms_children_subset c s x h v hv)

/-- The predicate `disjointLms` unfolded to its logical reading. -/
theorem disjointLms_iff {a b : TreeNode} :
    disjointLms a b = true ↔ ∀ u ∈ nodeLms a, ∀ v ∈ nodeLms b, u ≠ v := by
  simp [disjointLms, List.all_eq_true]

/-- Disjointness of the `last_modified` values passes to corresponding
children. -/
theorem disjointLms_child {a b x y : TreeNode} {s s2 : Seg}
    (hx : (s, x) ∈ a.children) (hy : (s2, y) ∈ b.children)
    (h : disjointLms a b = true) : disjointLms x y = true := by
  rw [disjointLms_iff] at h ⊢
  intro u hu v hv
  exact h u (nodeLms_child_subset hx u hu) v (nodeLms_child_subset hy v hv)

/-- Disjointness forbids a root-level `last_modified` tie. -/
theorem disjointLms_lm_ne {a b : TreeNode} (h : disjointLms a b = true) :
    a.last_modified ≠ b.last_modified :=
  disjointLms_iff.mp h _ (lm_mem_nodeLms a) _ (lm_mem_nodeLms b)

/-- Swapping the two trees mirrors the node-level diff, up to the stored
`last_modified` values (projected away by `hmStrip`), provided no node of one
tree shares a `last_modified` with a node of the other. -/
theorem findDifference_swap :
    ∀ (n : Nat) (a b : TreeNode), sizeOf a + sizeOf b ≤ n → disjointLms a b = true →
      (findDifference b a).map (fun p => (hmStrip p.1, hmStrip p.2)) =
        (findDifference a b).map (fun p => (hmStrip p.2, hmStrip p.1)) := by
  intro n
  induction n using Nat.strong_induction_on with
  | _ n ih =>
    intro a b hsize hdisj
    rw [findDifference_unfold a b, findDifference_unfold b a]
    by_cases hh : a.hash = b.hash
    · rw [if_pos hh, if_pos hh.symm]
      rfl
    · rw [if_neg hh, if_neg (fun he => hh he.symm)]
      by_cases hae : a.children.isEmpty <;> by_cases hbe : b.children.isEmpty <;>
        simp only [Bool.not_eq_true] at hae hbe
      · -- both leaves
        simp only [hae, hbe, Bool.and_self, if_true]
        have hne := disjointLms_lm_ne hdisj
        rcases Nat.lt_or_ge b.last_modified a.last_modified with hgt | hge
        · have h1 : a.last_modified > b.last_modified := hgt
          have h2 : ¬(b.last_modified > a.last_modified) := by omega
          rw [if_pos h1, if_neg h2]
          rfl
        · have h1 : ¬(a.last_modified > b.last_modified) := by omega
          have h2 : b.last_modified > a.last_modified := by
            rcases Nat.lt_or_eq_of_le hge with h3 | h3
            · exact h3
            · exact absurd h3 hne
          rw [if_neg h1, if_pos h2]
          rfl
      · -- a leaf, b interior
        simp only [hae, hbe, Bool.true_and, Bool.and_false, Bool.false_eq_true,
          if_false, if_true]
        rfl
      · -- a interior, b leaf
        simp only [hae, hbe, Bool.false_and, Bool.and_self, Bool.false_eq_true,
          if_false, if_true]
        rfl
      · -- both interior: the merge
        simp only [hae, hbe, Bool.false_and, Bool.false_eq_true, if_false]
        have hsw := diffMergeGo_swap [] [] [] a.children b.children
        simp only [List.map_nil] at hsw
        rw [hsw]
        simp only [Option.map_some']
        have hrs :
            (((diffMergeGo [] [] [] a.children b.children).2.2.map Prod.swap).map
                (fun p => findDifference p.1 p.2)).map
              (Option.map fun p => (hmStrip p.1, hmStrip p.2)) =
            ((diffMergeGo [] [] [] a.children b.children).2.2.map
                (fun p => findDifference p.1 p.2)).map
              (Option.map fun p => (hmStrip p.2, hmStrip p.1)) := by
          simp only [List.map_map]
          refine List.map_congr_left ?_
          intro q hq
          obtain ⟨x, y⟩ := q
          rcases mem_common_diffMergeGo _ _ _ _ _ hq with hcm | ⟨⟨s, hs⟩, ⟨s2, hs2⟩⟩
          · simp at hcm
          · have hx : sizeOf x < sizeOf a := sizeOf_lt_of_mem_children hs
            have hy : sizeOf y < sizeOf b := sizeOf_lt_of_mem_children hs2
            have hd : disjointLms x y = true := disjointLms_child hs hs2 hdisj
            exact ih (sizeOf x + sizeOf y) (by omega) x y le_rfl hd
        have hcomb := combineResults_strip_swap
          ((diffMergeGo [] [] [] a.children b.children).2.2.map
            (fun p => findDifference p.1 p.2))
          (((diffMergeGo [] [] [] a.children b.children).2.2.map Prod.swap).map
            (fun p => findDifference p.1 p.2))
          ((diffMergeGo [] [] [] a.children b.children).1,
            (diffMergeGo [] [] [] a.children b.children).2.1)
          ((diffMergeGo [] [] [] a.children b.children).2.1,
            (diffMergeGo [] [] [] a.children b.children).1)
          hrs rfl rfl
        rw [hcomb.1, hcomb.2]

/-- Strip-equal change maps produce the same path list. -/
theorem hmStrip_paths_congr {m m' : HashMapE} (h : hmStrip m = hmStrip m') :
    m.map (fun p => p.2.2.get_path) = m'.map (fun p => p.2.2.get_path) := by
  have h2 := congrArg (List.map fun q : Bytes × MerkleEntry => q.2.get_path) h
  simpa [hmStrip, List.map_map, Function.comp] using h2

/-- C7 (amended).  Provided no node of one tree shares a `last_modified`
value with a node of the other (no leaf-tie can occur), the public diff is
symmetric up to swapping the two path lists.  (At a `last_modified` tie the
changed pair is attributed to the right side in both orientations, breaking
symmetry — see the counterexample.) -/
theorem C7_amended (t1 t2 : MerkleTree) (h : disjointLms t1.root t2.root = true) :
    MerkleTree.find_difference t2 t1 =
      (MerkleTree.find_difference t1 t2).map (fun p => (p.2, p.1)) := by
  have hs := findDifference_swap (sizeOf t1.root + sizeOf t2.root) t1.root t2.root le_rfl h
  rw [MerkleTree.find_difference, MerkleTree.find_difference]
  cases hab : findDifference t1.root t2.root with
  | none =>
    rw [hab] at hs
    simp only [Option.map_none'] at hs
    rw [Option.map_eq_none'.mp hs]
    rfl
  | some p =>
    obtain ⟨d1, d2⟩ := p
    rw [hab] at hs
    cases hba : findDifference t2.root t1.root with
    | none => rw [hba] at hs; simp at hs
    | some q =>
      obtain ⟨e1, e2⟩ := q
      rw [hba] at hs
      simp only [Option.map_some'] at hs
      injection hs with hpair
      injection hpair with h1 h2
      simp only [Option.map_some']
      rw [hmStrip_paths_congr h1, hmStrip_paths_congr h2]

/-- Left tie tree: a single leaf root, hash `[1]`, last-modified 42. -/
def tieL : MerkleTree := ⟨.mk [] [7] [1] 42 (.file [[7]] 42 1 [1])⟩

/-- Right tie tree: same path and last-modified 42, different hash `[2]`. -/
def tieR : MerkleTree := ⟨.mk [] [7] [2] 42 (.file [[7]] 42 1 [2])⟩

/-- C7 (counterexample).  The claim: `diff(A, B) = (L, R)` iff
`diff(B, A) = (R, L)`.  With two changed leaves whose `last_modified` are
equal (42), both orientations attribute the change to the right side
(`self.last_modified > other.last_modified` fails both ways), so
`diff(B, A)` is not the swap of `diff(A, B)`. -/
theorem C7_counterexample :
    MerkleTree.find_difference tieL tieR = some ([], [[[7]]]) ∧
    MerkleTree.find_difference tieR tieL = some ([], [[[7]]]) ∧
    MerkleTree.find_difference tieR tieL ≠ some ([[[7]]], []) := by
  have h1 : findDifference tieL.root tieR.root =
      some ([], [([2], (42, MerkleEntry.file [[7]] 42 1 [2]))]) := by
    rw [findDifference_unfold]
    simp +decide [tieL, tieR, TreeNode.hash, TreeNode.children,
      TreeNode.last_modified, TreeNode.data]
  have h2 : findDifference tieR.root tieL.root =
      some ([], [([1], (42, MerkleEntry.file [[7]] 42 1 [1]))]) := by
    rw [findDifference_unfold]
    simp +decide [tieL, tieR, TreeNode.hash, TreeNode.children,
      TreeNode.last_modified, TreeNode.data]
  have hw1 : MerkleTree.find_difference tieL tieR =
      (match findDifference tieL.root tieR.root with
        | none => none
        | some (d1, d2) =>
          some (d1.map (fun p => p.2.2.get_path), d2.map (fun p => p.2.2.get_path))) := rfl
  have hw2 : MerkleTree.find_difference tieR tieL =
      (match findDifference tieR.root tieL.root with
        | none => none
        | some (d1, d2) =>
          some (d1.map (fun p => p.2.2.get_path), d2.map (fun p => p.2.2.get_path))) := rfl
  refine ⟨?_, ?_, ?_⟩
  · rw [hw1, h1]
    rfl
  · rw [hw2, h2]
    rfl
  · rw [hw2, h2]
    intro hcontra
    simp at hcontra

/-- Newer left tree (last-modified 100) for the witness. -/
def newerL : MerkleTree := ⟨.mk [] [7] [1] 100 (.file [[7]] 100 1 [1])⟩

/-- Older right tree (last-modified 50) for the witness. -/
def olderR : MerkleTree := ⟨.mk [] [7] [2] 50 (.file [[7]] 50 1 [2])⟩

/-- Witness for `C7_amended`: two tie-free single-leaf trees; the diff of the
swapped pair is the swap of the diff. -/
theorem C7_amended_witness :
    disjointLms newerL.root olderR.root = true ∧
    MerkleTree.find_difference olderR newerL =
      (MerkleTree.find_difference newerL olderR).map (fun p => (p.2, p.1)) :=
  ⟨by decide, C7_amended newerL olderR (by decide)⟩

end Syncron
